import Mathlib

/-!
# Verification of the gravesham-bin-days handler (`src/handler.js`)

This development is a shallow embedding, in Lean, of the pure logic of the
daily bin-collection notifier:

* the date parser `parseDateToLocal`;
* the schedule extractor `extractCollections` (table path and text-scan
  fallback path);
* the per-address decision procedure of `exports.daily` (notification gate,
  force mode, recipient filtering, state persistence) and the surrounding
  run loop.

External effects (the headless browser, DynamoDB, Gmail, the dad-joke fetch)
are represented by oracle inputs: each per-address run receives the outcome of
its scrape, its state-store read, each recipient send, and its state-store
write, and the embedding computes the observable events (sends attempted,
state writes attempted, skips) that the handler would produce.

The luxon date library is modelled as follows: a `DateTime` in the single
configured zone is a calendar date (`YMD`) plus a millisecond-of-day offset
(`LocalDT`); `startOf('day')` zeroes the offset; `toISODate` is the calendar
date; chronological order of start-of-day values in one fixed zone is
lexicographic order on (year, month, day); `fromFormat` with the three fixed
format strings and `fromISO` restricted to `YYYY-MM-DD` (with an optional
`THH:MM[:SS]` time part) are implemented character-by-character below,
including luxon's calendar validity check and its default two-digit-year
window (two-digit years above 60 resolve to 19xx, else 20xx).  JavaScript
regular expressions used by the handler are implemented directly as
backtracking character scanners, and JavaScript string primitives
(`trim`, `split`, `join`) are implemented structurally on `List Char` so
that every definition evaluates inside the kernel.
-/

/-- A calendar date: the model of a luxon `toISODate` value. -/
structure YMD where
  y : Nat
  m : Nat
  d : Nat
deriving DecidableEq, Repr

/-- A zoned luxon `DateTime`: a calendar date plus milliseconds since the
start of that day (the configured zone is fixed for the whole run, so it is
not represented). -/
structure LocalDT where
  date : YMD
  msOfDay : Nat
deriving DecidableEq, Repr

/-- `DateTime.startOf('day')`. -/
def startOfDay (dt : LocalDT) : LocalDT := ⟨dt.date, 0⟩

/-- Strict chronological order of calendar dates (luxon millisecond order
restricted to start-of-day values in one zone). -/
def ymdLT (a b : YMD) : Bool :=
  decide (a.y < b.y ∨ (a.y = b.y ∧ (a.m < b.m ∨ (a.m = b.m ∧ a.d < b.d))))

/-- Non-strict chronological order of calendar dates. -/
def ymdLE (a b : YMD) : Bool :=
  decide (a.y < b.y ∨ (a.y = b.y ∧ (a.m < b.m ∨ (a.m = b.m ∧ a.d ≤ b.d))))

/-! ## JavaScript string primitives on `List Char` -/

/-- The whitespace class used by JavaScript `trim` and by the `\s` regex
class (restricted to the code points that can occur in the scraped text). -/
def jsSpaceChar (c : Char) : Bool :=
  c = ' ' || c = '\t' || c = '\n' || c = '\r' || c = '\x0b' || c = '\x0c' || c = ' '

/-- JavaScript `String.prototype.trim`. -/
def jsTrimChars (cs : List Char) : List Char :=
  ((cs.dropWhile jsSpaceChar).reverse.dropWhile jsSpaceChar).reverse

/-- Split on every occurrence of a separator character (the model of
`String.prototype.split` for a one-character separator). -/
def splitOnCharAux (sep : Char) : List Char → List Char → List (List Char)
  | [], acc => [acc.reverse]
  | c :: cs, acc =>
    if c = sep then acc.reverse :: splitOnCharAux sep cs []
    else splitOnCharAux sep cs (c :: acc)

/-- Split a character list on a separator character. -/
def splitOnChar (sep : Char) (cs : List Char) : List (List Char) :=
  splitOnCharAux sep cs []

/-- Parse a nonempty all-digit character list as a natural number. -/
def digitsToNat? (cs : List Char) : Option Nat :=
  if cs ≠ [] ∧ cs.all Char.isDigit then
    some (cs.foldl (fun n c => n * 10 + (c.toNat - 48)) 0)
  else none

/-- Join character lists with a separator (the model of `Array.prototype.join`
and of string concatenation with fixed separators). -/
def intercalateChars (sep : List Char) : List (List Char) → List Char
  | [] => []
  | [x] => x
  | x :: y :: xs => x ++ sep ++ intercalateChars sep (y :: xs)

/-- `parts.join(sep)` on strings. -/
def joinSep (sep : String) (parts : List String) : String :=
  String.mk (intercalateChars sep.data (parts.map String.data))

/-! ## The luxon model -/

/-- Gregorian leap-year rule, as used by luxon's calendar validation. -/
def isLeapYear (y : Nat) : Bool :=
  (y % 4 == 0 && y % 100 != 0) || y % 400 == 0

/-- Days in a month, as used by luxon's calendar validation. -/
def daysInMonth (y m : Nat) : Nat :=
  if m = 2 then (if isLeapYear y then 29 else 28)
  else if m = 4 ∨ m = 6 ∨ m = 9 ∨ m = 11 then 30
  else 31

/-- Luxon validity check: `fromFormat`/`fromISO` mark a conflicting or
out-of-range day/month combination invalid. -/
def mkValidDate (y m d : Nat) : Option YMD :=
  if 1 ≤ m ∧ m ≤ 12 ∧ 1 ≤ d ∧ d ≤ daysInMonth y m then some ⟨y, m, d⟩ else none

/-- `DateTime.fromFormat(s, 'd/M/yyyy')`: one-or-two-digit day, `/`,
one-or-two-digit month, `/`, four-digit year; whole-string match followed by
calendar validation. -/
def parseDMY4 (cs : List Char) : Option LocalDT :=
  match splitOnChar '/' cs with
  | [a, b, c] =>
    if 1 ≤ a.length ∧ a.length ≤ 2 ∧ 1 ≤ b.length ∧ b.length ≤ 2 ∧ c.length = 4 then
      match digitsToNat? a, digitsToNat? b, digitsToNat? c with
      | some d, some m, some y => (mkValidDate y m d).map (fun ymd => ⟨ymd, 0⟩)
      | _, _, _ => none
    else none
  | _ => none

/-- Luxon's default two-digit-year century window
(`Settings.twoDigitCutoffYear = 60`). -/
def untruncateYear (yy : Nat) : Nat :=
  if yy > 60 then 1900 + yy else 2000 + yy

/-- `DateTime.fromFormat(s, 'd/M/yy')`: like `parseDMY4` but with a
two-digit year resolved through the default century window. -/
def parseDMY2 (cs : List Char) : Option LocalDT :=
  match splitOnChar '/' cs with
  | [a, b, c] =>
    if 1 ≤ a.length ∧ a.length ≤ 2 ∧ 1 ≤ b.length ∧ b.length ≤ 2 ∧ c.length = 2 then
      match digitsToNat? a, digitsToNat? b, digitsToNat? c with
      | some d, some m, some yy =>
        (mkValidDate (untruncateYear yy) m d).map (fun ymd => ⟨ymd, 0⟩)
      | _, _, _ => none
    else none
  | _ => none

/-- The en-US abbreviated month names that luxon's `LLL` parsing token
matches (case-insensitively). -/
def monthAbbrevs : List String :=
  ["jan", "feb", "mar", "apr", "may", "jun", "jul", "aug", "sep", "oct", "nov", "dec"]

/-- ASCII-lowercased code point, for case-insensitive month matching. -/
def lowerNat (c : Char) : Nat :=
  if 65 ≤ c.toNat ∧ c.toNat ≤ 90 then c.toNat + 32 else c.toNat

/-- Case-insensitive comparison of character lists. -/
def eqIgnoreCase (a b : List Char) : Bool :=
  decide (a.map lowerNat = b.map lowerNat)

/-- Month number of an abbreviated month name, case-insensitive. -/
def monthOfAbbrev (cs : List Char) : Option Nat :=
  match monthAbbrevs.findIdx? (fun t => eqIgnoreCase cs t.data) with
  | some i => some (i + 1)
  | none => none

/-- `DateTime.fromFormat(s, 'd LLL yyyy')`: day, one literal space,
abbreviated month name, one literal space, four-digit year. -/
def parseDMonY (cs : List Char) : Option LocalDT :=
  match splitOnChar ' ' cs with
  | [a, b, c] =>
    if 1 ≤ a.length ∧ a.length ≤ 2 ∧ c.length = 4 then
      match digitsToNat? a, monthOfAbbrev b, digitsToNat? c with
      | some d, some m, some y => (mkValidDate y m d).map (fun ymd => ⟨ymd, 0⟩)
      | _, _, _ => none
    else none
  | _ => none

/-- A component of exactly `n` digits. -/
def fixedDigits (n : Nat) (cs : List Char) : Option Nat :=
  if cs.length = n then digitsToNat? cs else none

/-- The calendar-date part `YYYY-MM-DD` of an ISO string. -/
def parseISOdate (cs : List Char) : Option YMD :=
  match splitOnChar '-' cs with
  | [a, b, c] =>
    match fixedDigits 4 a, fixedDigits 2 b, fixedDigits 2 c with
    | some y, some m, some d => mkValidDate y m d
    | _, _, _ => none
  | _ => none

/-- The time part `HH:MM` or `HH:MM:SS` of an ISO string, as milliseconds
since the start of the day. -/
def parseISOtime (cs : List Char) : Option Nat :=
  match splitOnChar ':' cs with
  | [h, mi] =>
    match fixedDigits 2 h, fixedDigits 2 mi with
    | some hh, some mm => if hh ≤ 23 ∧ mm ≤ 59 then some ((hh * 60 + mm) * 60 * 1000) else none
    | _, _ => none
  | [h, mi, se] =>
    match fixedDigits 2 h, fixedDigits 2 mi, fixedDigits 2 se with
    | some hh, some mm, some ss =>
      if hh ≤ 23 ∧ mm ≤ 59 ∧ ss ≤ 59 then some (((hh * 60 + mm) * 60 + ss) * 1000) else none
    | _, _, _ => none
  | _ => none

/-- `DateTime.fromISO(s)`, restricted to the ISO forms the handler can
encounter: a calendar date `YYYY-MM-DD`, optionally followed by
`THH:MM[:SS]`.  The time part carries a nonzero millisecond-of-day, which
the handler then discards with `startOf('day')`. -/
def parseISOmodel (cs : List Char) : Option LocalDT :=
  match splitOnChar 'T' cs with
  | [d] => (parseISOdate d).map (fun ymd => ⟨ymd, 0⟩)
  | [d, t] =>
    match parseISOdate d, parseISOtime t with
    | some ymd, some ms => some ⟨ymd, ms⟩
    | _, _ => none
  | _ => none

/-! ## JavaScript regex scanners -/

/-- A JavaScript regex word character (`\w`): letter, digit or underscore. -/
def isWordChar (c : Char) : Bool := c.isAlpha || c.isDigit || c = '_'

/-- Take exactly `n` characters satisfying `p` from the front, returning
them and the remainder. -/
def takeCount (p : Char → Bool) : Nat → List Char → Option (List Char × List Char)
  | 0, cs => some ([], cs)
  | n + 1, c :: cs =>
    if p c then (takeCount p n cs).map (fun pr => (c :: pr.1, pr.2)) else none
  | _ + 1, [] => none

/-- First success of `f` over a list of candidates, in order: the model of a
regex engine trying greedy quantifier lengths from longest to shortest. -/
def firstSome {α β : Type} (f : α → Option β) : List α → Option β
  | [] => none
  | a :: as =>
    match f a with
    | some b => some b
    | none => firstSome f as

/-- Candidate lengths `[hi, hi-1, ..., lo]` for a greedy bounded quantifier. -/
def lensDesc (lo hi : Nat) : List Nat :=
  (List.range (hi + 1 - lo)).map (fun k => hi - k)

/-- A `\b` word boundary immediately after a word character: the next
character, if any, must not be a word character. -/
def boundaryAfter : List Char → Bool
  | [] => true
  | c :: _ => !isWordChar c

/-- Match `\d{1,2}\/\d{1,2}\/\d{4}\b` at the head of `cs`, returning the
matched characters.  (The leading `\b` is checked by the scan driver.) -/
def embeddedDMY4At (cs : List Char) : Option (List Char) :=
  firstSome (fun n1 =>
    match takeCount Char.isDigit n1 cs with
    | none => none
    | some (d1, r1) =>
      match r1 with
      | '/' :: r2 =>
        firstSome (fun n2 =>
          match takeCount Char.isDigit n2 r2 with
          | none => none
          | some (d2, r3) =>
            match r3 with
            | '/' :: r4 =>
              match takeCount Char.isDigit 4 r4 with
              | none => none
              | some (d3, r5) =>
                if boundaryAfter r5 then some (d1 ++ '/' :: d2 ++ '/' :: d3) else none
            | _ => none) [2, 1]
      | _ => none) [2, 1]

/-- Scan driver for an unanchored regex each of whose alternatives starts
with `\b\d`: try the matcher at every position, left to right, at which the
previous character is not a word character (the word-boundary condition,
since a digit is a word character). -/
def scanWithMatcher (matcher : List Char → Option (List Char)) :
    Bool → List Char → Option (List Char)
  | _, [] => none
  | prevIsWord, c :: rest =>
    match (if prevIsWord then none else matcher (c :: rest)) with
    | some m => some m
    | none => scanWithMatcher matcher (isWordChar c) rest

/-- `s.match(/\b(\d{1,2}\/\d{1,2}\/\d{4})\b/)`, returning the matched
substring: the last-resort embedded-date scan of `parseDateToLocal`. -/
def embeddedScan (cs : List Char) : Option (List Char) :=
  scanWithMatcher embeddedDMY4At false cs

/-- `parseDateToLocal` from `src/handler.js`: trim, then try
`d/M/yyyy`, `d/M/yy`, `d LLL yyyy`, ISO, and finally a `D/M/YYYY` substring
embedded anywhere in the text; every success is anchored to the start of the
day; total failure yields `none` (the JavaScript function never throws,
which the embedding reflects by being a total function into `Option`). -/
def parseDateToLocal (str : String) : Option LocalDT :=
  let s := jsTrimChars str.data
  match parseDMY4 s with
  | some dt => some (startOfDay dt)
  | none =>
    match parseDMY2 s with
    | some dt => some (startOfDay dt)
    | none =>
      match parseDMonY s with
      | some dt => some (startOfDay dt)
      | none =>
        match parseISOmodel s with
        | some dt => some (startOfDay dt)
        | none =>
          match embeddedScan s with
          | some inner =>
            match parseDMY4 inner with
            | some dt => some (startOfDay dt)
            | none => none
          | none => none

/-- Match the first alternative `\b\d{1,2}\/\d{1,2}\/\d{2,4}\b` of the loose
date pattern at the head of `cs`. -/
def looseSlashAt (cs : List Char) : Option (List Char) :=
  firstSome (fun n1 =>
    match takeCount Char.isDigit n1 cs with
    | none => none
    | some (d1, r1) =>
      match r1 with
      | '/' :: r2 =>
        firstSome (fun n2 =>
          match takeCount Char.isDigit n2 r2 with
          | none => none
          | some (d2, r3) =>
            match r3 with
            | '/' :: r4 =>
              firstSome (fun n3 =>
                match takeCount Char.isDigit n3 r4 with
                | none => none
                | some (d3, r5) =>
                  if boundaryAfter r5 then some (d1 ++ '/' :: d2 ++ '/' :: d3) else none)
                (lensDesc 2 4)
            | _ => none) [2, 1]
      | _ => none) [2, 1]

/-- Match the second alternative `\b\d{1,2}\s+[A-Za-z]{3,9}\s+\d{4}\b` of the
loose date pattern at the head of `cs`. -/
def looseMonthNameAt (cs : List Char) : Option (List Char) :=
  firstSome (fun n1 =>
    match takeCount Char.isDigit n1 cs with
    | none => none
    | some (d1, r1) =>
      firstSome (fun w1 =>
        match takeCount jsSpaceChar w1 r1 with
        | none => none
        | some (s1, r2) =>
          firstSome (fun a1 =>
            match takeCount Char.isAlpha a1 r2 with
            | none => none
            | some (mn, r3) =>
              firstSome (fun w2 =>
                match takeCount jsSpaceChar w2 r3 with
                | none => none
                | some (s2, r4) =>
                  match takeCount Char.isDigit 4 r4 with
                  | none => none
                  | some (d3, r5) =>
                    if boundaryAfter r5 then some (d1 ++ s1 ++ mn ++ s2 ++ d3) else none)
                (lensDesc 1 ((r3.takeWhile jsSpaceChar).length)))
            (lensDesc 3 (min ((r2.takeWhile Char.isAlpha).length) 9)))
        (lensDesc 1 ((r1.takeWhile jsSpaceChar).length))) [2, 1]

/-- Match the third alternative `\b\d{4}-\d{2}-\d{2}\b` of the loose date
pattern at the head of `cs`. -/
def looseISOAt (cs : List Char) : Option (List Char) :=
  match takeCount Char.isDigit 4 cs with
  | some (d1, '-' :: r1) =>
    match takeCount Char.isDigit 2 r1 with
    | some (d2, '-' :: r2) =>
      match takeCount Char.isDigit 2 r2 with
      | some (d3, r3) =>
        if boundaryAfter r3 then some (d1 ++ '-' :: d2 ++ '-' :: d3) else none
      | _ => none
    | _ => none
  | _ => none

/-- The three alternatives of the loose date pattern, tried in order at one
position. -/
def looseDateAt (cs : List Char) : Option (List Char) :=
  match looseSlashAt cs with
  | some m => some m
  | none =>
    match looseMonthNameAt cs with
    | some m => some m
    | none => looseISOAt cs

/-- `line.match(dateRegex)` for the extractor's loose date pattern
`/(\b\d{1,2}\/\d{1,2}\/\d{2,4}\b)|(\b\d{1,2}\s+[A-Za-z]{3,9}\s+\d{4}\b)|(\b\d{4}-\d{2}-\d{2}\b)/`,
returning the matched substring; `dateRegex.test(line)` is `isSome` of this. -/
def lineDateMatch (s : String) : Option String :=
  (scanWithMatcher looseDateAt false s.data).map (fun m => String.mk m)

/-- A character matched by an unescaped `.` in a JavaScript regex: anything
but a line terminator. -/
def jsDotChar (c : Char) : Bool :=
  !(c = '\n' || c = '\r' || c = ' ' || c = ' ')

/-- `/.+@.+\..+/.test(v)`: the handler's email-shape filter.  The string
matches iff it contains an `@` with at least one non-terminator character
before it and, at least two positions later, a `.` with only non-terminator
characters in between and at least one non-terminator character after it. -/
def emailLike (v : String) : Bool :=
  let cs := v.data
  let n := cs.length
  (List.range n).any (fun i =>
    decide (1 ≤ i) && decide (cs.getD i ' ' = '@') && jsDotChar (cs.getD (i - 1) '\n') &&
    (List.range n).any (fun j =>
      decide (i + 2 ≤ j) && decide (j + 2 ≤ n) && decide (cs.getD j ' ' = '.') &&
      jsDotChar (cs.getD (j + 1) '\n') &&
      (List.range n).all (fun k =>
        !(decide (i < k) && decide (k < j)) || jsDotChar (cs.getD k '\n'))))

/-! ## The schedule extractor -/

/-- A normalized collection entry: `{ localDate, bins }` as produced by
`extractCollections` (dates are `YMD` values, the model of the ISO date
strings the handler stores in `localDate`). -/
structure CollectionEntry where
  localDate : YMD
  bins : List String
deriving DecidableEq, Repr

/-- One meaningful table row as produced by the in-page extraction: the
whitespace-normalized text of the first two cells. -/
structure Row where
  dateText : String
  binsText : String
deriving DecidableEq, Repr

/-- The insertion-ordered map from local date to bin strings that
`extractCollections` builds (a JavaScript `Map`: lookups by key, updates in
place, new keys appended). -/
abbrev DateMap := List (YMD × List String)

/-- `map.get(d)`. -/
def lookupDate (d : YMD) : DateMap → Option (List String)
  | [] => none
  | (k, v) :: rest => if k = d then some v else lookupDate d rest

/-- `map.set(d, v)`: replace in place if the key exists, else append. -/
def setDate (d : YMD) (v : List String) : DateMap → DateMap
  | [] => [(d, v)]
  | (k, w) :: rest => if k = d then (k, v) :: rest else (k, w) :: setDate d v rest

/-- Append each element not already present (the accumulating core of
JavaScript `Set` construction, preserving first-seen order). -/
def addNew (acc : List String) : List String → List String
  | [] => acc
  | x :: xs => if acc.contains x then addNew acc xs else addNew (acc ++ [x]) xs

/-- `Array.from(new Set(l))`: deduplicate, keeping first occurrences in
order. -/
def jsSetOfList (l : List String) : List String := addNew [] l

/-- One step of the table-path merge loop of `extractCollections`: skip the
row if its date does not parse or its bin text is empty, otherwise append
the bin text to the row's date key unless already present. -/
def mergeStep (acc : DateMap) (row : Row) : DateMap :=
  match parseDateToLocal row.dateText with
  | none => acc
  | some dt =>
    if row.binsText = "" then acc
    else
      let localDate := dt.date
      let existing := (lookupDate localDate acc).getD []
      if existing.contains row.binsText then acc
      else setDate localDate (existing ++ [row.binsText]) acc

/-- The table-path merge of `extractCollections`: fold all rows into the
insertion-ordered date map. -/
def mergeRows (rows : List Row) : DateMap :=
  rows.foldl mergeStep []

/-- `raw.split(/\n+/).map(s => s.trim()).filter(Boolean)`: the visible-text
lines of the fallback path.  (Splitting on every newline and then dropping
empty trimmed pieces is the same as splitting on newline runs.) -/
def splitLines (raw : String) : List String :=
  (((splitOnChar '\n' raw.data).map jsTrimChars).map (fun cs => String.mk cs)).filter
    (fun s => s ≠ "")

/-- The three-line context window `[lines[i-1], lines[i], lines[i+1]]`
joined with spaces; out-of-range neighbours are dropped (all retained lines
are nonempty, so `filter(Boolean)` drops nothing else). -/
def ctxAt (lines : List String) (i : Nat) : String :=
  joinSep " "
    ((if i = 0 then [] else (lines.get? (i - 1)).toList)
      ++ (lines.get? i).toList ++ (lines.get? (i + 1)).toList)

/-- The fallback entry produced by line `i`, if the line matches the loose
date pattern and the matched substring parses. -/
def fallbackEntryAt (lines : List String) (i : Nat) : Option CollectionEntry :=
  match lines.get? i with
  | none => none
  | some li =>
    match lineDateMatch li with
    | none => none
    | some ds =>
      match parseDateToLocal ds with
      | none => none
      | some dt => some ⟨dt.date, [ctxAt lines i]⟩

/-- The `results` list of the fallback path: one pseudo-entry per matching
line, in line order. -/
def fallbackRaw (lines : List String) : List CollectionEntry :=
  (List.range lines.length).filterMap (fallbackEntryAt lines)

/-- One step of the fallback grouping loop:
`byDate.set(r.localDate, Array.from(new Set([...existing, ...r.bins])))`. -/
def groupStep (acc : DateMap) (r : CollectionEntry) : DateMap :=
  let existing := (lookupDate r.localDate acc).getD []
  setDate r.localDate (jsSetOfList (existing ++ r.bins)) acc

/-- Group fallback results by calendar date with de-duplicated context
strings. -/
def groupByDate (results : List CollectionEntry) : DateMap :=
  results.foldl groupStep []

/-- `tableData.html?.trim() || null`. -/
def htmlTrim (h : Option String) : Option String :=
  match h with
  | none => none
  | some s =>
    let t := String.mk (jsTrimChars s.data)
    if t = "" then none else some t

/-- `extractCollections` from `src/handler.js`, modelled after the in-page
DOM walk: it receives the extracted meaningful rows of the winning table
(empty if no table yielded rows), the winning table's outer markup, and the
page's visible text.  Primary path: merge the rows by parsed date; fallback
path (only when the primary map is empty): scan the text lines for the
loose date pattern and group three-line context windows by parsed date.
Both paths return the same shape. -/
def extractCollections (tableRows : List Row) (tableHtmlRaw : Option String)
    (rawText : String) : List CollectionEntry × Option String :=
  let byDateFromTables := mergeRows tableRows
  if byDateFromTables ≠ [] then
    (byDateFromTables.map (fun p => ⟨p.1, p.2⟩), htmlTrim tableHtmlRaw)
  else
    (((groupByDate (fallbackRaw (splitLines rawText))).map (fun p => ⟨p.1, p.2⟩)),
      htmlTrim tableHtmlRaw)

/-! ## The notification gate and run loop

The per-address body of `exports.daily` is embedded as a pure function of
the run context and of oracles for the four external effects it performs
(scrape, state read, per-recipient send, state write).  Its value is the
list of observable events in the order the handler produces them.  Message
composition (subject, plain text, HTML body, the dad joke) has no effect on
which events occur and is represented separately by the `binsTextFor`
family of definitions taken from the same lines of the source. -/

/-- `wasNotifiedForDate` from `src/handler.js`, applied to the state-store
item it read: `res.Item?.lastNotifiedForLocalDate?.S === localDate` (an
absent item or attribute compares unequal). -/
def wasNotifiedForDate (stored : Option YMD) (localDate : YMD) : Bool :=
  match stored with
  | some last => decide (last = localDate)
  | none => false

/-- Stable insertion of an entry into a date-sorted list: the model of the
ascending `.sort((a, b) => a.dt - b.dt)` comparator. -/
def insertByDt (c : CollectionEntry) : List CollectionEntry → List CollectionEntry
  | [] => [c]
  | x :: xs => if ymdLT c.localDate x.localDate then c :: x :: xs else x :: insertByDt c xs

/-- Stable ascending sort by collection date. -/
def sortByDt : List CollectionEntry → List CollectionEntry
  | [] => []
  | x :: xs => insertByDt x (sortByDt xs)

/-- The `announceDate` computation of `exports.daily`: start from
`tomorrow`; in force mode with no collection tomorrow, take the first
upcoming entry (date on or after the start of today) in ascending date
order, if any.  (Entries carry `YMD` dates, on which the handler's
`DateTime.fromISO(c.localDate).isValid` re-parse always succeeds, so that
filter is identically true here.) -/
def announceDateFor (forceNotify hasTomorrow : Bool) (collections : List CollectionEntry)
    (today tomorrow : YMD) : YMD :=
  if forceNotify && !hasTomorrow then
    match sortByDt (collections.filter (fun c => ymdLE today c.localDate)) with
    | [] => tomorrow
    | c :: _ => c.localDate
  else tomorrow

/-- `binsForAnnounce`: the bins of every entry whose date is exactly the
announce date, concatenated. -/
def binsForAnnounce (collections : List CollectionEntry) (announceDate : YMD) : List String :=
  (collections.filter (fun c => decide (c.localDate = announceDate))).flatMap
    (fun c => c.bins)

/-- `uniqueBins = Array.from(new Set(binsForAnnounce))`. -/
def uniqueBinsFor (collections : List CollectionEntry) (announceDate : YMD) : List String :=
  jsSetOfList (binsForAnnounce collections announceDate)

/-- `announceDetails`: per-entry bin lists of the announce date, each joined
with a comma, then joined with a bar. -/
def announceDetailsFor (collections : List CollectionEntry) (announceDate : YMD) : String :=
  joinSep " | "
    ((collections.filter (fun c => decide (c.localDate = announceDate))).map
      (fun c => joinSep ", " c.bins))

/-- `binsText = announceDetails || uniqueBins.join(' + ')`: the bin list
rendered into the message, falling back from the per-entry rendering to the
de-duplicated join when the former is the empty string. -/
def binsTextFor (collections : List CollectionEntry) (announceDate : YMD) : String :=
  let details := announceDetailsFor collections announceDate
  if details = "" then joinSep " + " (uniqueBinsFor collections announceDate) else details

/-- The result of a successful scrape: the normalized collections and the
retained table markup. -/
structure ScrapeResult where
  collections : List CollectionEntry
  tableHtml : Option String
deriving Repr

/-- The observable events of one per-address iteration of the daily loop,
in execution order. -/
inductive Event where
  | scrapeFailed (label : String)
  | skippedNoCollection (label : String)
  | skippedAlreadyNotified (label : String)
  | sendAttempt (rcpt : String) (ok : Bool)
  | stateWrite (d : YMD)
  | stateWriteFailed (d : YMD)
deriving DecidableEq, Repr

/-- The per-address body of `exports.daily` (lines 147–267 of
`src/handler.js`), as a pure function of the run context and the outcomes
of its external effects:

* a scrape failure is caught and the address is skipped;
* with no collection tomorrow and not in force mode, the address is skipped;
* outside force mode the notification state is read; a read failure leaves
  `alreadyNotified = false`; if already notified for tomorrow, skip;
* the announce date and message content are computed;
* a send is attempted to every email-like recipient (each failure caught);
* outside force mode, when the announce date is tomorrow, a state write of
  tomorrow's date is attempted (its failure caught). -/
def processAddress (today tomorrow : YMD) (forceNotify : Bool)
    (label : String) (recipients : List String)
    (scrape : Except Unit ScrapeResult)
    (readState : Except Unit (Option YMD))
    (sendOk : String → Bool) (writeOk : Bool) : List Event :=
  match scrape with
  | .error _ => [.scrapeFailed label]
  | .ok result =>
    let hasTomorrow := result.collections.any (fun c => decide (c.localDate = tomorrow))
    if !forceNotify && !hasTomorrow then [.skippedNoCollection label]
    else
      let alreadyNotified :=
        if forceNotify then false
        else
          match readState with
          | .ok stored => wasNotifiedForDate stored tomorrow
          | .error _ => false
      if !forceNotify && alreadyNotified then [.skippedAlreadyNotified label]
      else
        let announceDate := announceDateFor forceNotify hasTomorrow result.collections today tomorrow
        let isTomorrow := decide (announceDate = tomorrow)
        let toList := recipients.filter emailLike
        let sendEvents := toList.map (fun e => Event.sendAttempt e (sendOk e))
        let writeEvents :=
          if !forceNotify && isTomorrow then
            (if writeOk then [Event.stateWrite tomorrow] else [Event.stateWriteFailed tomorrow])
          else []
        sendEvents ++ writeEvents

/-- The address configuration entries of `config/recipients.json`. -/
structure AddressConfig where
  label : String
  recipients : List String

/-- The oracle for one address's external effects. -/
structure AddressOracle where
  scrape : Except Unit ScrapeResult
  readState : Except Unit (Option YMD)
  sendOk : String → Bool
  writeOk : Bool

/-- The sequential address loop of `exports.daily`: each address's events
in order, one address's outcome never affecting the others. -/
def loopAddresses (today tomorrow : YMD) (forceNotify : Bool) :
    List (AddressConfig × AddressOracle) → List Event
  | [] => []
  | (a, o) :: rest =>
    processAddress today tomorrow forceNotify a.label a.recipients
        o.scrape o.readState o.sendOk o.writeOk
      ++ loopAddresses today tomorrow forceNotify rest

/-- The structured result of a completed run:
`{ statusCode: 200, body: 'ok' }` plus the events the run produced. -/
structure RunResult where
  statusCode : Nat
  events : List Event

/-- `exports.daily`: configuration loading and browser launch may each fail
and abort the whole run (their errors propagate); once both succeed the
address loop runs to completion and the handler returns a 200 result.  The
dad-joke fetch is omitted: its promise carries a `.catch` returning `null`,
so it can affect only message content, never control flow. -/
def daily (config : Except Unit (List (AddressConfig × AddressOracle)))
    (browser : Except Unit Unit) (today tomorrow : YMD) (forceNotify : Bool) :
    Except Unit RunResult :=
  match config with
  | .error e => .error e
  | .ok addrs =>
    match browser with
    | .error e => .error e
    | .ok _ => .ok ⟨200, loopAddresses today tomorrow forceNotify addrs⟩

/-! ## Spec-side predicates and observation helpers -/

/-- Is the event a send attempt? -/
def isSendEvent : Event → Bool
  | .sendAttempt _ _ => true
  | _ => false

/-- Is the event a state-write attempt (successful or failed)? -/
def isWriteEvent : Event → Bool
  | .stateWrite _ => true
  | .stateWriteFailed _ => true
  | _ => false

/-- No send attempt occurs at or after the first state-write attempt: the
ordering half of the persistence claim. -/
def noSendAfterWrite (evs : List Event) : Bool :=
  (evs.dropWhile (fun e => !isWriteEvent e)).all (fun e => !isSendEvent e)

/-- Turn a successful state write into a failed one (what an injected store
write failure changes in the event trace, and nothing else). -/
def markWriteFailed : Event → Event
  | .stateWrite d => .stateWriteFailed d
  | e => e

/-- Modelled from the spec: "falling back to a deduplicated union across
the whole schedule if no entry exactly matches" — the whole-schedule bin
union the specification describes, for comparison with the source's
`uniqueBinsFor`. -/
def specWholeScheduleBins (collections : List CollectionEntry) : List String :=
  jsSetOfList (collections.flatMap (fun c => c.bins))

/-- The bin texts of the table rows that parse to a given date (nonempty
bin text only), in row order: the input of the merge claim. -/
def rowTextsFor (rows : List Row) (d : YMD) : List String :=
  rows.filterMap (fun row =>
    match parseDateToLocal row.dateText with
    | none => none
    | some dt => if row.binsText ≠ "" ∧ dt.date = d then some row.binsText else none)

/-- The context window of line `i` when the line matches the loose date
pattern and its date parses to `d`. -/
def ctxSel (lines : List String) (d : YMD) (i : Nat) : Option String :=
  match fallbackEntryAt lines i with
  | some e => if e.localDate = d then some (ctxAt lines i) else none
  | none => none

/-- The context windows of the text lines that match the loose date pattern
and parse to a given date, in line order: the input of the fallback claim. -/
def ctxsFor (lines : List String) (d : YMD) : List String :=
  (List.range lines.length).filterMap (ctxSel lines d)

/-- The concatenated bins of the entries of one date. -/
def flatBinsOf (results : List CollectionEntry) (d : YMD) : List String :=
  (results.filter (fun r => decide (r.localDate = d))).flatMap (fun r => r.bins)

/-- The keys of a date map, in insertion order. -/
def mapKeys (m : DateMap) : List YMD := m.map Prod.fst

/-- A list equal to its own de-duplication: the invariant of every value
stored by the fallback grouping. -/
def IsDedup (l : List String) : Prop := addNew [] l = l

/-! ## Helper lemmas -/

theorem ymdLE_refl (a : YMD) : ymdLE a a = true := by
  simp [ymdLE]

theorem ymdLE_of_lt {a b : YMD} (h : ymdLT a b = true) : ymdLE a b = true := by
  simp [ymdLT] at h
  simp [ymdLE]
  omega

theorem ymdLE_of_not_lt {a b : YMD} (h : ymdLT a b = false) : ymdLE b a = true := by
  simp [ymdLT] at h
  simp [ymdLE]
  omega

theorem ymdLE_trans {a b c : YMD} (h1 : ymdLE a b = true) (h2 : ymdLE b c = true) :
    ymdLE a c = true := by
  simp [ymdLE] at h1 h2 ⊢
  omega

theorem mem_insertByDt {x c : CollectionEntry} {l : List CollectionEntry} :
    x ∈ insertByDt c l ↔ x = c ∨ x ∈ l := by
  induction l with
  | nil => simp [insertByDt]
  | cons a as ih =>
    simp only [insertByDt]
    split
    · simp only [List.mem_cons]
    · simp only [List.mem_cons, ih]
      tauto

theorem sortByDt_eq_nil {l : List CollectionEntry} (h : sortByDt l = []) : l = [] := by
  cases l with
  | nil => rfl
  | cons a as =>
    simp only [sortByDt] at h
    exfalso
    cases e : sortByDt as with
    | nil => rw [e] at h; simp [insertByDt] at h
    | cons b bs => rw [e] at h; simp only [insertByDt] at h; split at h <;> simp_all

theorem sortByDt_head_min (l : List CollectionEntry) (h : CollectionEntry)
    (t : List CollectionEntry) (he : sortByDt l = h :: t) :
    h ∈ l ∧ ∀ x ∈ l, ymdLE h.localDate x.localDate = true := by
  induction l generalizing h t with
  | nil => simp [sortByDt] at he
  | cons a as ih =>
    simp only [sortByDt] at he
    cases e : sortByDt as with
    | nil =>
      have : as = [] := sortByDt_eq_nil e
      subst this
      simp only [sortByDt, insertByDt] at he
      cases he
      refine ⟨by simp, ?_⟩
      intro x hx
      simp at hx
      subst hx
      exact ymdLE_refl _
    | cons b bs =>
      rw [e] at he
      obtain ⟨hbmem, hbmin⟩ := ih b bs e
      simp only [insertByDt] at he
      split at he
      · rename_i hlt
        cases he
        refine ⟨by simp, ?_⟩
        intro x hx
        rcases List.mem_cons.mp hx with hx | hx
        · subst hx; exact ymdLE_refl _
        · exact ymdLE_trans (ymdLE_of_lt hlt) (hbmin x hx)
      · rename_i hnlt
        cases he
        refine ⟨List.mem_cons_of_mem _ hbmem, ?_⟩
        intro x hx
        rcases List.mem_cons.mp hx with hx | hx
        · subst hx
          exact ymdLE_of_not_lt (Bool.eq_false_iff.mpr hnlt)
        · exact hbmin x hx

theorem lookupDate_setDate_self (d : YMD) (v : List String) (m : DateMap) :
    lookupDate d (setDate d v m) = some v := by
  induction m with
  | nil => simp [setDate, lookupDate]
  | cons p rest ih =>
    obtain ⟨k, w⟩ := p
    simp only [setDate]
    by_cases h : k = d
    · simp [h, lookupDate]
    · simp [h, lookupDate, ih]

theorem lookupDate_setDate_ne {d k : YMD} (h : d ≠ k) (v : List String) (m : DateMap) :
    lookupDate d (setDate k v m) = lookupDate d m := by
  have hk : k ≠ d := Ne.symm h
  induction m with
  | nil => simp [setDate, lookupDate, hk]
  | cons p rest ih =>
    obtain ⟨k', w⟩ := p
    simp only [setDate]
    by_cases h2 : k' = k
    · subst h2
      simp [lookupDate, hk]
    · simp only [h2, if_false, lookupDate]
      by_cases h3 : k' = d
      · simp [h3]
      · simp [h3, ih]

theorem lookupDate_mem {d : YMD} {v : List String} {m : DateMap}
    (h : lookupDate d m = some v) : (d, v) ∈ m := by
  induction m with
  | nil => simp [lookupDate] at h
  | cons p rest ih =>
    obtain ⟨k, w⟩ := p
    simp only [lookupDate] at h
    by_cases h2 : k = d
    · subst h2
      simp at h
      simp [h]
    · simp [h2] at h
      exact List.mem_cons_of_mem _ (ih h)

theorem mem_setDate {p : YMD × List String} {k : YMD} {v : List String} {m : DateMap}
    (h : p ∈ setDate k v m) : p = (k, v) ∨ p ∈ m := by
  induction m with
  | nil => simp [setDate] at h; simp [h]
  | cons q rest ih =>
    obtain ⟨k', w⟩ := q
    simp only [setDate] at h
    split at h
    · rename_i h2
      rcases List.mem_cons.mp h with h | h
      · left; rw [h, h2]
      · right; exact List.mem_cons_of_mem _ h
    · rcases List.mem_cons.mp h with h | h
      · right; simp [h]
      · rcases ih h with h | h
        · left; exact h
        · right; exact List.mem_cons_of_mem _ h

theorem mapKeys_setDate_mem {k : YMD} (v : List String) {m : DateMap}
    (h : k ∈ mapKeys m) : mapKeys (setDate k v m) = mapKeys m := by
  induction m with
  | nil => simp [mapKeys] at h
  | cons p rest ih =>
    obtain ⟨k', w⟩ := p
    simp only [setDate]
    by_cases h2 : k' = k
    · simp [h2, mapKeys]
    · simp only [mapKeys, List.map_cons, List.mem_cons] at h
      rcases h with h | h
      · exact absurd h.symm h2
      · have hh := ih h
        simp only [h2, if_false, mapKeys, List.map_cons]
        simp only [mapKeys] at hh
        rw [hh]

theorem mapKeys_setDate_not_mem {k : YMD} (v : List String) {m : DateMap}
    (h : ¬ k ∈ mapKeys m) : mapKeys (setDate k v m) = mapKeys m ++ [k] := by
  induction m with
  | nil => simp [mapKeys, setDate]
  | cons p rest ih =>
    obtain ⟨k', w⟩ := p
    simp only [mapKeys, List.map_cons, List.mem_cons] at h
    push_neg at h
    have hh := ih h.2
    simp only [setDate, Ne.symm h.1, if_false, mapKeys, List.map_cons, List.cons_append]
    simp only [mapKeys] at hh
    rw [hh]

theorem lookupDate_isSome_iff {d : YMD} {m : DateMap} :
    (lookupDate d m).isSome = true ↔ d ∈ mapKeys m := by
  induction m with
  | nil => simp [lookupDate, mapKeys]
  | cons p rest ih =>
    obtain ⟨k, w⟩ := p
    simp only [lookupDate, mapKeys, List.map_cons, List.mem_cons]
    by_cases h : k = d
    · simp [h]
    · have h2 : ¬ d = k := fun hh => h hh.symm
      simp only [h, if_false, h2, false_or]
      simpa [mapKeys] using ih

theorem nodup_mapKeys_setDate {k : YMD} (v : List String) {m : DateMap}
    (h : (mapKeys m).Nodup) : (mapKeys (setDate k v m)).Nodup := by
  by_cases hm : k ∈ mapKeys m
  · rw [mapKeys_setDate_mem v hm]; exact h
  · rw [mapKeys_setDate_not_mem v hm]
    simp [List.nodup_append, h, hm]

theorem filter_key_nil_of_not_mem {d : YMD} {m : DateMap} (h : ¬ d ∈ mapKeys m) :
    m.filter (fun p => decide (p.1 = d)) = [] := by
  induction m with
  | nil => simp
  | cons p rest ih =>
    obtain ⟨k, w⟩ := p
    simp only [mapKeys, List.map_cons, List.mem_cons] at h
    push_neg at h
    have h1 : ¬ (k = d) := Ne.symm h.1
    simp [List.filter_cons, h1, ih h.2]

theorem filter_key_singleton {d : YMD} {v : List String} {m : DateMap}
    (hnd : (mapKeys m).Nodup) (h : lookupDate d m = some v) :
    m.filter (fun p => decide (p.1 = d)) = [(d, v)] := by
  induction m with
  | nil => simp [lookupDate] at h
  | cons p rest ih =>
    obtain ⟨k, w⟩ := p
    simp only [mapKeys, List.map_cons, List.nodup_cons] at hnd
    simp only [lookupDate] at h
    by_cases h2 : k = d
    · subst h2
      simp only [if_true] at h
      cases h
      have : ¬ k ∈ mapKeys rest := by simpa [mapKeys] using hnd.1
      simp [List.filter_cons, filter_key_nil_of_not_mem this]
    · simp only [h2, if_false] at h
      have hnd2 : (mapKeys rest).Nodup := by simpa [mapKeys] using hnd.2
      simp [List.filter_cons, h2, ih hnd2 h]

theorem addNew_append (s l1 l2 : List String) :
    addNew s (l1 ++ l2) = addNew (addNew s l1) l2 := by
  induction l1 generalizing s with
  | nil => simp [addNew]
  | cons x xs ih =>
    simp only [List.cons_append, addNew]
    split
    · exact ih s
    · exact ih (s ++ [x])

theorem isDedup_addNew {s : List String} (l : List String) (hs : IsDedup s) :
    IsDedup (addNew s l) := by
  induction l generalizing s with
  | nil => exact hs
  | cons x xs ih =>
    simp only [addNew]
    by_cases h : x ∈ s
    · rw [if_pos (List.elem_iff.mpr h)]
      exact ih hs
    · rw [if_neg (fun hc => h (List.elem_iff.mp hc))]
      refine ih ?_
      show addNew [] (s ++ [x]) = s ++ [x]
      rw [addNew_append, hs]
      simp [addNew, h]

theorem isDedup_jsSetOfList (l : List String) : IsDedup (jsSetOfList l) :=
  isDedup_addNew l rfl

theorem foldl_mergeStep_lookup (rows : List Row) (acc : DateMap) (d : YMD) :
    lookupDate d (List.foldl mergeStep acc rows) =
      match lookupDate d acc with
      | some bs => some (addNew bs (rowTextsFor rows d))
      | none =>
        if rowTextsFor rows d = [] then none
        else some (addNew [] (rowTextsFor rows d)) := by
  induction rows generalizing acc with
  | nil =>
    cases h4 : lookupDate d acc <;> simp [rowTextsFor, h4, addNew]
  | cons row rest ih =>
    simp only [List.foldl_cons]
    cases h1 : parseDateToLocal row.dateText with
    | none =>
      have hstep : mergeStep acc row = acc := by simp [mergeStep, h1]
      have hrtf : rowTextsFor (row :: rest) d = rowTextsFor rest d := by
        simp [rowTextsFor, List.filterMap_cons, h1]
      rw [hstep, hrtf, ih]
    | some dt =>
      by_cases h2 : row.binsText = ""
      · have hstep : mergeStep acc row = acc := by simp [mergeStep, h1, h2]
        have hrtf : rowTextsFor (row :: rest) d = rowTextsFor rest d := by
          simp [rowTextsFor, List.filterMap_cons, h1, h2]
        rw [hstep, hrtf, ih]
      · by_cases h3 : dt.date = d
        · have hrtf : rowTextsFor (row :: rest) d = row.binsText :: rowTextsFor rest d := by
            simp [rowTextsFor, List.filterMap_cons, h1, h2, h3]
          rw [hrtf]
          cases h4 : lookupDate d acc with
          | some bs =>
            by_cases h5 : row.binsText ∈ bs
            · have hstep : mergeStep acc row = acc := by
                simp [mergeStep, h1, h2, h3, h4, h5]
              rw [hstep, ih, h4]
              simp [addNew, h5]
            · have hstep : mergeStep acc row = setDate d (bs ++ [row.binsText]) acc := by
                simp [mergeStep, h1, h2, h3, h4, h5]
              rw [hstep, ih, lookupDate_setDate_self]
              simp [addNew, h5]
          | none =>
            have hstep : mergeStep acc row = setDate d [row.binsText] acc := by
              simp [mergeStep, h1, h2, h3, h4]
            rw [hstep, ih, lookupDate_setDate_self]
            simp [addNew]
        · have hrtf : rowTextsFor (row :: rest) d = rowTextsFor rest d := by
            simp [rowTextsFor, List.filterMap_cons, h1, h3]
          have hlk : lookupDate d (mergeStep acc row) = lookupDate d acc := by
            have hne : d ≠ dt.date := fun hh => h3 hh.symm
            simp only [mergeStep, h1]
            simp only [h2, if_false]
            split
            · rfl
            · exact lookupDate_setDate_ne hne _ _
          rw [hrtf, ih, hlk]

theorem foldl_groupStep_lookup (results : List CollectionEntry) (acc : DateMap) (d : YMD)
    (hv : ∀ p ∈ acc, IsDedup p.2) :
    lookupDate d (List.foldl groupStep acc results) =
      match lookupDate d acc with
      | some bs => some (addNew bs (flatBinsOf results d))
      | none =>
        if results.any (fun r => decide (r.localDate = d)) = true then
          some (addNew [] (flatBinsOf results d))
        else none := by
  induction results generalizing acc with
  | nil =>
    cases h4 : lookupDate d acc <;> simp [flatBinsOf, h4, addNew]
  | cons r rest ih =>
    simp only [List.foldl_cons]
    have hv2 : ∀ p ∈ groupStep acc r, IsDedup p.2 := by
      intro p hp
      simp only [groupStep] at hp
      rcases mem_setDate hp with hp | hp
      · rw [hp]
        exact isDedup_jsSetOfList _
      · exact hv p hp
    by_cases h3 : r.localDate = d
    · have hflat : flatBinsOf (r :: rest) d = r.bins ++ flatBinsOf rest d := by
        simp [flatBinsOf, List.filter_cons, h3]
      rw [hflat]
      cases h4 : lookupDate d acc with
      | some bs =>
        have hbs : IsDedup bs := hv (d, bs) (lookupDate_mem h4)
        have hstep : groupStep acc r = setDate d (addNew bs r.bins) acc := by
          simp only [groupStep, h3, h4, Option.getD_some]
          show setDate d (addNew [] (bs ++ r.bins)) acc = _
          rw [addNew_append, hbs]
        rw [hstep] at hv2
        rw [hstep, ih _ hv2, lookupDate_setDate_self]
        simp [addNew_append]
      | none =>
        have hstep : groupStep acc r = setDate d (addNew [] r.bins) acc := by
          simp [groupStep, h3, h4, jsSetOfList]
        rw [hstep] at hv2
        rw [hstep, ih _ hv2, lookupDate_setDate_self]
        simp [addNew_append, h3]
    · have hflat : flatBinsOf (r :: rest) d = flatBinsOf rest d := by
        simp [flatBinsOf, List.filter_cons, h3]
      have hany : (r :: rest).any (fun x => decide (x.localDate = d))
          = rest.any (fun x => decide (x.localDate = d)) := by
        simp [h3]
      have hlk : lookupDate d (groupStep acc r) = lookupDate d acc := by
        have hne : d ≠ r.localDate := fun hh => h3 hh.symm
        simp only [groupStep]
        exact lookupDate_setDate_ne hne _ _
      rw [ih _ hv2, hlk, hflat, hany]

theorem nodup_mapKeys_mergeStep {acc : DateMap} (row : Row)
    (h : (mapKeys acc).Nodup) : (mapKeys (mergeStep acc row)).Nodup := by
  simp only [mergeStep]
  cases parseDateToLocal row.dateText with
  | none => exact h
  | some dt =>
    by_cases h2 : row.binsText = ""
    · simp only [h2, if_true]; exact h
    · simp only [h2, if_false]
      split
      · exact h
      · exact nodup_mapKeys_setDate _ h

theorem nodup_mapKeys_foldl_mergeStep (rows : List Row) (acc : DateMap)
    (h : (mapKeys acc).Nodup) : (mapKeys (List.foldl mergeStep acc rows)).Nodup := by
  induction rows generalizing acc with
  | nil => exact h
  | cons row rest ih =>
    simp only [List.foldl_cons]
    exact ih _ (nodup_mapKeys_mergeStep row h)

theorem fallbackEntryAt_bins {lines : List String} {i : Nat} {e : CollectionEntry}
    (h : fallbackEntryAt lines i = some e) : e.bins = [ctxAt lines i] := by
  unfold fallbackEntryAt at h
  split at h
  · exact Option.noConfusion h
  · split at h
    · exact Option.noConfusion h
    · split at h
      · exact Option.noConfusion h
      · cases h; rfl

theorem fallback_flatBins (lines : List String) (d : YMD) (is : List Nat) :
    flatBinsOf (is.filterMap (fallbackEntryAt lines)) d = is.filterMap (ctxSel lines d) := by
  induction is with
  | nil => simp [flatBinsOf]
  | cons i rest ih =>
    cases h : fallbackEntryAt lines i with
    | none =>
      simp only [List.filterMap_cons, h, ctxSel]
      exact ih
    | some e =>
      have hbins := fallbackEntryAt_bins h
      by_cases h3 : e.localDate = d
      · have hcons : flatBinsOf (e :: List.filterMap (fallbackEntryAt lines) rest) d
            = ctxAt lines i :: flatBinsOf (List.filterMap (fallbackEntryAt lines) rest) d := by
          simp [flatBinsOf, List.filter_cons, h3, hbins]
        simp only [List.filterMap_cons, h, ctxSel, h3, if_true]
        rw [hcons, ih]
      · have hcons : flatBinsOf (e :: List.filterMap (fallbackEntryAt lines) rest) d
            = flatBinsOf (List.filterMap (fallbackEntryAt lines) rest) d := by
          simp [flatBinsOf, List.filter_cons, h3]
        simp only [List.filterMap_cons, h, ctxSel, h3, if_false]
        rw [hcons, ih]

theorem fallback_any (lines : List String) (d : YMD) (is : List Nat) :
    ((is.filterMap (fallbackEntryAt lines)).any (fun r => decide (r.localDate = d)) = true)
      ↔ is.filterMap (ctxSel lines d) ≠ [] := by
  induction is with
  | nil => simp
  | cons i rest ih =>
    cases h : fallbackEntryAt lines i with
    | none =>
      simp only [List.filterMap_cons, h, ctxSel]
      exact ih
    | some e =>
      by_cases h3 : e.localDate = d
      · simp [List.filterMap_cons, h, ctxSel, h3]
      · simp only [List.filterMap_cons, h, ctxSel, h3, if_false, List.any_cons,
          decide_eq_true_eq, Bool.or_eq_true]
        simp only [h3, false_or]
        exact ih

theorem dropWhile_sendAttempts (l : List String) (f : String → Bool) (rest : List Event) :
    (l.map (fun e => Event.sendAttempt e (f e)) ++ rest).dropWhile (fun e => !isWriteEvent e)
      = rest.dropWhile (fun e => !isWriteEvent e) := by
  induction l with
  | nil => rfl
  | cons x xs ih => simp [List.dropWhile_cons, isWriteEvent, ih]

theorem filter_isWrite_sendAttempts (l : List String) (f : String → Bool) (rest : List Event) :
    (l.map (fun e => Event.sendAttempt e (f e)) ++ rest).filter isWriteEvent
      = rest.filter isWriteEvent := by
  induction l with
  | nil => rfl
  | cons x xs ih => simp [List.filter_cons, isWriteEvent, ih]

theorem filter_isSend_sendAttempts (l : List String) (f : String → Bool) (rest : List Event) :
    (l.map (fun e => Event.sendAttempt e (f e)) ++ rest).filter isSendEvent
      = l.map (fun e => Event.sendAttempt e (f e)) ++ rest.filter isSendEvent := by
  induction l with
  | nil => rfl
  | cons x xs ih => simp [List.filter_cons, isSendEvent, ih]

/-! ## Claim theorems -/

/-- Claim C2 (confirmed): for every address and every run with
`forceMode = false`, if the stored notification state has
`lastNotifiedDate` equal to the target date, the decision is no action —
no send and no state write occur, even when the schedule still contains an
entry for the target date (and whatever the scrape returned). -/
theorem already_notified_skip_confirmed (today tomorrow : YMD) (label : String)
    (recipients : List String) (scrape : Except Unit ScrapeResult)
    (sendOk : String → Bool) (writeOk : Bool) :
    (processAddress today tomorrow false label recipients scrape
        (Except.ok (some tomorrow)) sendOk writeOk).all
      (fun e => !isSendEvent e && !isWriteEvent e) = true := by
  cases scrape with
  | error e => rfl
  | ok result =>
    simp only [processAddress]
    split
    · rfl
    · simp [wasNotifiedForDate, isSendEvent, isWriteEvent]

theorem map_markWriteFailed_sends (l : List String) (f : String → Bool) (rest : List Event) :
    (l.map (fun e => Event.sendAttempt e (f e)) ++ rest).map markWriteFailed
      = l.map (fun e => Event.sendAttempt e (f e)) ++ rest.map markWriteFailed := by
  induction l with
  | nil => rfl
  | cons x xs ih => simp [markWriteFailed, ih]

/-- Claim C7 (confirmed): a failure reading the notification state store is
treated as "not previously notified" — the per-address run behaves exactly
as if the store had returned no record, so a read error never suppresses a
due notification; and a store write failure changes nothing but the
recorded outcome of the write attempt (the sends, the skips and the run's
completion are untouched, so it does not fail the run). -/
theorem store_errors_isolated_confirmed (today tomorrow : YMD) (forceNotify : Bool)
    (label : String) (recipients : List String) (scrape : Except Unit ScrapeResult)
    (readState : Except Unit (Option YMD)) (sendOk : String → Bool) (writeOk : Bool) :
    processAddress today tomorrow forceNotify label recipients scrape
        (Except.error ()) sendOk writeOk
      = processAddress today tomorrow forceNotify label recipients scrape
          (Except.ok none) sendOk writeOk
    ∧ processAddress today tomorrow forceNotify label recipients scrape
        readState sendOk false
      = (processAddress today tomorrow forceNotify label recipients scrape
          readState sendOk true).map markWriteFailed := by
  constructor
  · cases scrape with
    | error e => rfl
    | ok result => simp [processAddress, wasNotifiedForDate]
  · cases scrape with
    | error e => rfl
    | ok result =>
      simp only [processAddress]
      repeat' split
      all_goals simp_all [markWriteFailed, map_markWriteFailed_sends]

/-- Claim C9 (confirmed): once configuration loading and the browser launch
succeed, the run returns the 200 success result, whatever every per-address
oracle does; the loop is the concatenation of all addresses' events; a
scraping failure for one address contributes only its failure event and the
loop continues with the rest; and only a configuration error or a browser
acquisition failure aborts the run. -/
theorem run_success_despite_failures_confirmed
    (addrs : List (AddressConfig × AddressOracle)) (today tomorrow : YMD)
    (forceNotify : Bool) :
    daily (Except.ok addrs) (Except.ok ()) today tomorrow forceNotify
      = Except.ok ⟨200, loopAddresses today tomorrow forceNotify addrs⟩
    ∧ loopAddresses today tomorrow forceNotify addrs
      = (addrs.map (fun p =>
          processAddress today tomorrow forceNotify p.1.label p.1.recipients
            p.2.scrape p.2.readState p.2.sendOk p.2.writeOk)).flatten
    ∧ (∀ (a : AddressConfig) (rs : Except Unit (Option YMD)) (so : String → Bool)
        (wo : Bool) (rest : List (AddressConfig × AddressOracle)),
        loopAddresses today tomorrow forceNotify ((a, ⟨Except.error (), rs, so, wo⟩) :: rest)
          = Event.scrapeFailed a.label :: loopAddresses today tomorrow forceNotify rest)
    ∧ daily (Except.error ()) (Except.ok ()) today tomorrow forceNotify = Except.error ()
    ∧ (∀ cfg : List (AddressConfig × AddressOracle),
        daily (Except.ok cfg) (Except.error ()) today tomorrow forceNotify
          = Except.error ()) := by
  refine ⟨rfl, ?_, ?_, rfl, fun _ => rfl⟩
  · induction addrs with
    | nil => rfl
    | cons p rest ih => simp [loopAddresses, ih]
  · intro a rs so wo rest
    rfl

theorem filter_isWrite_sendAttempts_nil (l : List String) (f : String → Bool) :
    (l.map (fun e => Event.sendAttempt e (f e))).filter isWriteEvent = [] := by
  induction l with
  | nil => rfl
  | cons x xs ih => simp [List.filter_cons, isWriteEvent, ih]

theorem noSendAfterWrite_sends_writes (l : List String) (f : String → Bool)
    (writes : List Event) (hw : ∀ e ∈ writes, isSendEvent e = false) :
    noSendAfterWrite (l.map (fun e => Event.sendAttempt e (f e)) ++ writes) = true := by
  unfold noSendAfterWrite
  rw [dropWhile_sendAttempts, List.all_eq_true]
  intro e he
  simp [hw e ((List.dropWhile_sublist _).subset he)]

/-- Claim C1 (corrected): the durable state write does occur only after the
send step — no send attempt ever follows a state-write attempt in the event
order — but it is not conditioned on the send having succeeded: the state
writes that occur are identical whatever the per-recipient send outcomes
are, so a send failure does not leave the stored state unchanged. -/
theorem persist_after_all_sends_amended (today tomorrow : YMD) (forceNotify : Bool)
    (label : String) (recipients : List String) (scrape : Except Unit ScrapeResult)
    (readState : Except Unit (Option YMD)) (sendOk sendOk' : String → Bool)
    (writeOk : Bool) :
    noSendAfterWrite (processAddress today tomorrow forceNotify label recipients scrape
        readState sendOk writeOk) = true
    ∧ (processAddress today tomorrow forceNotify label recipients scrape
        readState sendOk writeOk).filter isWriteEvent
      = (processAddress today tomorrow forceNotify label recipients scrape
          readState sendOk' writeOk).filter isWriteEvent := by
  cases scrape with
  | error e => exact ⟨rfl, rfl⟩
  | ok result =>
    simp only [processAddress]
    constructor
    · repeat' split
      all_goals
        first
          | rfl
          | exact noSendAfterWrite_sends_writes _ _ _ (by intro e he; simp at he; subst he; rfl)
          | exact noSendAfterWrite_sends_writes _ _ _ (by intro e he; simp at he)
    · repeat' split
      all_goals
        first
          | rfl
          | rw [filter_isWrite_sendAttempts, filter_isWrite_sendAttempts]

/-- Claim C1 (counterexample): in a non-force run whose only recipient's
send fails, the handler still writes `lastNotifiedDate = targetDate` — the
trace is the failed send followed by the state write, so the claim that a
send failure leaves the stored state unchanged is false on the code. -/
theorem persist_despite_send_failure_counterexample :
    processAddress ⟨2025, 9, 10⟩ ⟨2025, 9, 11⟩ false "10 Example Road" ["a@b.c"]
        (Except.ok ⟨[⟨⟨2025, 9, 11⟩, ["General Waste"]⟩], none⟩) (Except.ok none)
        (fun _ => false) true
      = [Event.sendAttempt "a@b.c" false, Event.stateWrite ⟨2025, 9, 11⟩]
    ∧ Event.stateWrite ⟨2025, 9, 11⟩ ∈
        processAddress ⟨2025, 9, 10⟩ ⟨2025, 9, 11⟩ false "10 Example Road" ["a@b.c"]
          (Except.ok ⟨[⟨⟨2025, 9, 11⟩, ["General Waste"]⟩], none⟩) (Except.ok none)
          (fun _ => false) true := by
  constructor
  · decide
  · decide

/-- Claim C3 (amended): in force mode, for every schedule with no entry on
the target date, the announce date is the earliest schedule entry whose
date is on or after the start of today when such an entry exists; when no
entry qualifies, the announce date falls back to the target date and the
run still attempts a send to every email-like recipient — the decision is
not "no action". -/
theorem force_mode_announce_amended (collections : List CollectionEntry)
    (today tomorrow : YMD) :
    ((collections.filter (fun c => ymdLE today c.localDate)) ≠ [] →
      (∃ c, c ∈ collections.filter (fun c => ymdLE today c.localDate) ∧
          announceDateFor true false collections today tomorrow = c.localDate)
      ∧ ∀ c ∈ collections.filter (fun c => ymdLE today c.localDate),
          ymdLE (announceDateFor true false collections today tomorrow) c.localDate = true)
    ∧ ((collections.filter (fun c => ymdLE today c.localDate)) = [] →
        announceDateFor true false collections today tomorrow = tomorrow)
    ∧ (∀ (th : Option String) (label : String) (recipients : List String)
        (readState : Except Unit (Option YMD)) (sendOk : String → Bool) (writeOk : Bool),
        processAddress today tomorrow true label recipients
            (Except.ok ⟨collections, th⟩) readState sendOk writeOk
          = (recipients.filter emailLike).map (fun e => Event.sendAttempt e (sendOk e))) := by
  refine ⟨?_, ?_, ?_⟩
  · intro hq
    cases e : sortByDt (collections.filter (fun c => ymdLE today c.localDate)) with
    | nil => exact absurd (sortByDt_eq_nil e) hq
    | cons h t =>
      obtain ⟨hmem, hmin⟩ := sortByDt_head_min _ h t e
      have ha : announceDateFor true false collections today tomorrow = h.localDate := by
        simp [announceDateFor, e]
      exact ⟨⟨h, hmem, ha⟩, fun c hc => ha ▸ hmin c hc⟩
  · intro hq
    simp [announceDateFor, hq, sortByDt]
  · intro th label recipients readState sendOk writeOk
    simp [processAddress]

/-- Claim C3 (counterexample): in force mode with a schedule whose only
entry is in the past — no entry on or after the start of today — the code
does not decide "no action": the announce date stays the target date and a
send is still attempted. -/
theorem force_mode_no_upcoming_counterexample :
    processAddress ⟨2025, 9, 10⟩ ⟨2025, 9, 11⟩ true "10 Example Road" ["a@b.c"]
        (Except.ok ⟨[⟨⟨2025, 9, 1⟩, ["General Waste"]⟩], none⟩) (Except.ok none)
        (fun _ => true) true
      = [Event.sendAttempt "a@b.c" true]
    ∧ ([⟨⟨2025, 9, 1⟩, ["General Waste"]⟩] : List CollectionEntry).filter
        (fun c => ymdLE ⟨2025, 9, 10⟩ c.localDate) = [] := by
  constructor
  · decide
  · decide

/-- Claim C3 (witness for the amended theorem): with today 2025-09-10,
target 2025-09-11 and entries on 2025-09-20 and 2025-09-14 only, some entry
qualifies, the announce date resolves to 2025-09-14, and the theorem bounds
it below the 2025-09-20 entry. -/
theorem force_mode_announce_witness :
    ([⟨⟨2025, 9, 20⟩, ["B"]⟩, ⟨⟨2025, 9, 14⟩, ["A"]⟩] : List CollectionEntry).filter
        (fun c => ymdLE ⟨2025, 9, 10⟩ c.localDate) ≠ []
    ∧ announceDateFor true false [⟨⟨2025, 9, 20⟩, ["B"]⟩, ⟨⟨2025, 9, 14⟩, ["A"]⟩]
        ⟨2025, 9, 10⟩ ⟨2025, 9, 11⟩ = ⟨2025, 9, 14⟩
    ∧ ymdLE (announceDateFor true false [⟨⟨2025, 9, 20⟩, ["B"]⟩, ⟨⟨2025, 9, 14⟩, ["A"]⟩]
        ⟨2025, 9, 10⟩ ⟨2025, 9, 11⟩) ⟨2025, 9, 20⟩ = true := by
  refine ⟨by decide, by decide, ?_⟩
  exact ((force_mode_announce_amended
      [⟨⟨2025, 9, 20⟩, ["B"]⟩, ⟨⟨2025, 9, 14⟩, ["A"]⟩] ⟨2025, 9, 10⟩ ⟨2025, 9, 11⟩).1
    (by decide)).2 ⟨⟨2025, 9, 20⟩, ["B"]⟩ (by decide)

/-- Claim C4 (counterexample): when no schedule entry matches the announce
date, the gathered bin list is empty and the rendered bin text is the empty
string — it does not fall back to the deduplicated union across the whole
schedule, which here would be "General Waste". -/
theorem bins_whole_schedule_counterexample :
    uniqueBinsFor [⟨⟨2025, 9, 11⟩, ["General Waste"]⟩] ⟨2025, 9, 12⟩ = []
    ∧ binsTextFor [⟨⟨2025, 9, 11⟩, ["General Waste"]⟩] ⟨2025, 9, 12⟩ = ""
    ∧ specWholeScheduleBins [⟨⟨2025, 9, 11⟩, ["General Waste"]⟩] = ["General Waste"]
    ∧ uniqueBinsFor [⟨⟨2025, 9, 11⟩, ["General Waste"]⟩] ⟨2025, 9, 12⟩
        ≠ specWholeScheduleBins [⟨⟨2025, 9, 11⟩, ["General Waste"]⟩] := by
  refine ⟨by decide, by decide, by decide, by decide⟩

/-- Claim C4 (amended): when gathering the bins for the chosen announce
date, both the per-entry details string and the deduplicated bin list are
computed only from entries whose `localDate` equals the announce date; if
no entry matches, the bin list is empty and the rendered bin text is the
empty string — the only fallback is from the per-entry rendering to the
deduplicated join over those same matching entries, never a whole-schedule
union. -/
theorem bins_empty_when_no_match_amended (collections : List CollectionEntry) (a : YMD)
    (h : collections.all (fun c => !decide (c.localDate = a)) = true) :
    uniqueBinsFor collections a = [] ∧ binsTextFor collections a = "" := by
  have hf : collections.filter (fun c => decide (c.localDate = a)) = [] := by
    rw [List.filter_eq_nil_iff]
    intro c hc
    have := List.all_eq_true.mp h c hc
    simpa using this
  have h1 : uniqueBinsFor collections a = [] := by
    simp [uniqueBinsFor, binsForAnnounce, hf, jsSetOfList, addNew]
  have hd : announceDetailsFor collections a = "" := by
    rw [announceDetailsFor, hf]
    decide
  refine ⟨h1, ?_⟩
  simp only [binsTextFor, hd, h1]
  decide

/-- Claim C4 (witness for the amended theorem): a one-entry schedule on
2025-09-11 has no entry on 2025-09-12, and the amended theorem yields the
empty bin list and empty bin text there. -/
theorem bins_empty_when_no_match_witness :
    ([⟨⟨2025, 9, 11⟩, ["General Waste"]⟩] : List CollectionEntry).all
        (fun c => !decide (c.localDate = (⟨2025, 9, 12⟩ : YMD))) = true
    ∧ uniqueBinsFor [⟨⟨2025, 9, 11⟩, ["General Waste"]⟩] ⟨2025, 9, 12⟩ = []
    ∧ binsTextFor [⟨⟨2025, 9, 11⟩, ["General Waste"]⟩] ⟨2025, 9, 12⟩ = "" :=
  ⟨by decide,
    (bins_empty_when_no_match_amended [⟨⟨2025, 9, 11⟩, ["General Waste"]⟩] ⟨2025, 9, 12⟩
      (by decide)).1,
    (bins_empty_when_no_match_amended [⟨⟨2025, 9, 11⟩, ["General Waste"]⟩] ⟨2025, 9, 12⟩
      (by decide)).2⟩

/-- Claim C10 (confirmed): recipients that do not match the email-like
pattern are silently dropped — the send attempts are exactly the
`emailLike`-filtered recipients in order — and in a non-force run whose
announce date is the target date, when no recipient matches, no send is
attempted yet the notification state is still persisted for that date. -/
theorem email_filter_state_persist_confirmed (today tomorrow : YMD) (label : String)
    (recipients : List String) (collections : List CollectionEntry) (th : Option String)
    (sendOk : String → Bool)
    (h : collections.any (fun c => decide (c.localDate = tomorrow)) = true) :
    (processAddress today tomorrow false label recipients (Except.ok ⟨collections, th⟩)
        (Except.ok none) sendOk true).filter isSendEvent
      = (recipients.filter emailLike).map (fun e => Event.sendAttempt e (sendOk e))
    ∧ (recipients.filter emailLike = [] →
        processAddress today tomorrow false label recipients (Except.ok ⟨collections, th⟩)
          (Except.ok none) sendOk true = [Event.stateWrite tomorrow]) := by
  have htrace : processAddress today tomorrow false label recipients
      (Except.ok ⟨collections, th⟩) (Except.ok none) sendOk true
      = (recipients.filter emailLike).map (fun e => Event.sendAttempt e (sendOk e))
        ++ [Event.stateWrite tomorrow] := by
    simp [processAddress, h, wasNotifiedForDate, announceDateFor]
  constructor
  · rw [htrace, filter_isSend_sendAttempts]
    simp [isSendEvent]
  · intro hempty
    rw [htrace, hempty]
    rfl

/-- Claim C10 (witness): a schedule with a collection on the target date
and a lone phone-number recipient — `emailLike` rejects it, the filtered
recipient list is empty, and the trace is exactly the state write. -/
theorem email_filter_state_persist_witness :
    ([⟨⟨2025, 9, 11⟩, ["General Waste"]⟩] : List CollectionEntry).any
        (fun c => decide (c.localDate = (⟨2025, 9, 11⟩ : YMD))) = true
    ∧ (["+447700900001"].filter emailLike = ([] : List String))
    ∧ processAddress ⟨2025, 9, 10⟩ ⟨2025, 9, 11⟩ false "10 Example Road" ["+447700900001"]
        (Except.ok ⟨[⟨⟨2025, 9, 11⟩, ["General Waste"]⟩], none⟩) (Except.ok none)
        (fun _ => true) true = [Event.stateWrite ⟨2025, 9, 11⟩] :=
  ⟨by decide, by decide,
    (email_filter_state_persist_confirmed ⟨2025, 9, 10⟩ ⟨2025, 9, 11⟩ "10 Example Road"
      ["+447700900001"] [⟨⟨2025, 9, 11⟩, ["General Waste"]⟩] none (fun _ => true)
      (by decide)).2 (by decide)⟩

/-- Claim C5 (confirmed): the date parser accepts, in priority order,
`D/M/YYYY`, `D/M/YY`, `D Mon YYYY`, ISO `YYYY-MM-DD`, and as a last resort
an embedded `D/M/YYYY` substring — the trimmed input flows through exactly
that `orElse` chain, so the first matching format wins and the result is
`none` exactly when all five fail (the embedding is a total function, the
counterpart of the JavaScript function never throwing); and every
successful parse is anchored to the start of the day. -/
theorem parse_priority_and_anchoring_confirmed (s : String) :
    parseDateToLocal s =
      (((((parseDMY4 (jsTrimChars s.data)).orElse
            (fun _ => parseDMY2 (jsTrimChars s.data))).orElse
            (fun _ => parseDMonY (jsTrimChars s.data))).orElse
            (fun _ => parseISOmodel (jsTrimChars s.data))).orElse
            (fun _ => (embeddedScan (jsTrimChars s.data)).bind parseDMY4)).map startOfDay
    ∧ (parseDateToLocal s).all (fun dt => decide (dt.msOfDay = 0)) = true := by
  have hchain : parseDateToLocal s =
      (((((parseDMY4 (jsTrimChars s.data)).orElse
            (fun _ => parseDMY2 (jsTrimChars s.data))).orElse
            (fun _ => parseDMonY (jsTrimChars s.data))).orElse
            (fun _ => parseISOmodel (jsTrimChars s.data))).orElse
            (fun _ => (embeddedScan (jsTrimChars s.data)).bind parseDMY4)).map startOfDay := by
    simp only [parseDateToLocal]
    cases h1 : parseDMY4 (jsTrimChars s.data) with
    | some dt => simp [Option.orElse]
    | none =>
      cases h2 : parseDMY2 (jsTrimChars s.data) with
      | some dt => simp [Option.orElse]
      | none =>
        cases h3 : parseDMonY (jsTrimChars s.data) with
        | some dt => simp [Option.orElse]
        | none =>
          cases h4 : parseISOmodel (jsTrimChars s.data) with
          | some dt => simp [Option.orElse]
          | none =>
            cases h5 : embeddedScan (jsTrimChars s.data) with
            | some inner =>
              cases h6 : parseDMY4 inner with
              | some dt => simp [Option.orElse, Option.bind, h6]
              | none => simp [Option.orElse, Option.bind, h6]
            | none => simp [Option.orElse, Option.bind]
  refine ⟨hchain, ?_⟩
  rw [hchain]
  cases ((((parseDMY4 (jsTrimChars s.data)).orElse
      (fun _ => parseDMY2 (jsTrimChars s.data))).orElse
      (fun _ => parseDMonY (jsTrimChars s.data))).orElse
      (fun _ => parseISOmodel (jsTrimChars s.data))).orElse
      (fun _ => (embeddedScan (jsTrimChars s.data)).bind parseDMY4) with
  | none => rfl
  | some dt => simp [startOfDay]

/-- Claim C6 (confirmed): in the extractor's table path, whenever some rows
parse to a calendar date `d` (with nonempty bin text), the output schedule
contains exactly one entry for `d` — filtering the output on `d` yields a
singleton — and its bin list is the union of those rows' bin texts with
duplicates removed and first-seen order preserved. -/
theorem table_merge_single_entry_confirmed (rows : List Row) (html : Option String)
    (raw : String) (d : YMD) (hne : rowTextsFor rows d ≠ []) :
    (extractCollections rows html raw).1.filter (fun e => decide (e.localDate = d))
      = [⟨d, jsSetOfList (rowTextsFor rows d)⟩] := by
  have hlk : lookupDate d (mergeRows rows) = some (addNew [] (rowTextsFor rows d)) := by
    have hm := foldl_mergeStep_lookup rows [] d
    simp only [lookupDate] at hm
    rw [show mergeRows rows = List.foldl mergeStep [] rows from rfl, hm, if_neg hne]
  have hnodup : (mapKeys (mergeRows rows)).Nodup :=
    nodup_mapKeys_foldl_mergeStep rows [] (by simp [mapKeys])
  have hmne : mergeRows rows ≠ [] := by
    intro hh
    rw [hh] at hlk
    simp [lookupDate] at hlk
  have hsingle := filter_key_singleton hnodup hlk
  simp only [extractCollections]
  rw [if_pos hmne]
  rw [List.filter_map]
  have hcong : (mergeRows rows).filter
      ((fun e => decide (e.localDate = d)) ∘ (fun p => (⟨p.1, p.2⟩ : CollectionEntry)))
      = (mergeRows rows).filter (fun p => decide (p.1 = d)) := by
    apply List.filter_congr
    intro p _
    rfl
  rw [hcong, hsingle]
  rfl

/-- Claim C6 (witness): three rows whose date texts, in three different
formats, all parse to 2025-09-11 — two with the same bin text — merge into
the single entry with bins `["General Waste", "Garden Waste"]`. -/
theorem table_merge_single_entry_witness :
    rowTextsFor [⟨"11/9/2025", "General Waste"⟩, ⟨"11 Sep 2025", "Garden Waste"⟩,
        ⟨"2025-09-11", "General Waste"⟩] ⟨2025, 9, 11⟩ ≠ []
    ∧ (extractCollections [⟨"11/9/2025", "General Waste"⟩, ⟨"11 Sep 2025", "Garden Waste"⟩,
          ⟨"2025-09-11", "General Waste"⟩] none "").1.filter
        (fun e => decide (e.localDate = (⟨2025, 9, 11⟩ : YMD)))
      = [⟨⟨2025, 9, 11⟩, ["General Waste", "Garden Waste"]⟩] := by
  refine ⟨by decide, ?_⟩
  have h := table_merge_single_entry_confirmed
    [⟨"11/9/2025", "General Waste"⟩, ⟨"11 Sep 2025", "Garden Waste"⟩,
      ⟨"2025-09-11", "General Waste"⟩] none "" ⟨2025, 9, 11⟩ (by decide)
  rw [h]
  decide

/-- Claim C8 (confirmed): the extractor's text-scan fallback runs only when
the table path yields zero merged entries — with a nonempty merge the
result is the table path's and is independent of the page text; with an
empty merge the result is the grouped fallback entries in the same schedule
shape, and for every date the grouped entry holds exactly the de-duplicated
three-line context windows of the lines that match the loose date pattern
and parse to that date. -/
theorem fallback_only_when_table_empty_confirmed (rows : List Row) (html : Option String)
    (raw : String) :
    (mergeRows rows ≠ [] →
      extractCollections rows html raw
        = ((mergeRows rows).map (fun p => ⟨p.1, p.2⟩), htmlTrim html))
    ∧ (mergeRows rows = [] →
      extractCollections rows html raw
        = ((groupByDate (fallbackRaw (splitLines raw))).map (fun p => ⟨p.1, p.2⟩),
            htmlTrim html)
      ∧ ∀ d, lookupDate d (groupByDate (fallbackRaw (splitLines raw)))
          = (if ctxsFor (splitLines raw) d = [] then none
             else some (jsSetOfList (ctxsFor (splitLines raw) d)))) := by
  constructor
  · intro hne
    simp only [extractCollections]
    rw [if_pos hne]
  · intro hmt
    refine ⟨?_, ?_⟩
    · simp only [extractCollections]
      rw [if_neg (by simp [hmt])]
    · intro d
      have hg := foldl_groupStep_lookup (fallbackRaw (splitLines raw)) [] d (by simp)
      simp only [lookupDate] at hg
      rw [show groupByDate (fallbackRaw (splitLines raw))
          = List.foldl groupStep [] (fallbackRaw (splitLines raw)) from rfl, hg]
      have hf : flatBinsOf (fallbackRaw (splitLines raw)) d = ctxsFor (splitLines raw) d :=
        fallback_flatBins (splitLines raw) d (List.range (splitLines raw).length)
      have ha : ((fallbackRaw (splitLines raw)).any (fun r => decide (r.localDate = d)) = true)
          ↔ ctxsFor (splitLines raw) d ≠ [] :=
        fallback_any (splitLines raw) d (List.range (splitLines raw).length)
      by_cases hc : ctxsFor (splitLines raw) d = []
      · rw [if_pos hc, if_neg (fun hh => (ha.mp hh) hc)]
      · rw [if_neg hc, if_pos (ha.mpr hc), hf]
        rfl

/-- Claim C8 (witness): with no table rows, a page text whose middle line
is `12/09/2025` produces one entry for 2025-09-12 whose single bin string
is the three-line context window; with one merged table row, the fallback
does not fire and the table entry is returned with the trimmed markup. -/
theorem fallback_only_when_table_empty_witness :
    mergeRows [] = ([] : DateMap)
    ∧ extractCollections [] none "Next collection\n12/09/2025\nGeneral waste"
        = ([⟨⟨2025, 9, 12⟩, ["Next collection 12/09/2025 General waste"]⟩], none)
    ∧ mergeRows [⟨"11/9/2025", "General Waste"⟩] ≠ []
    ∧ extractCollections [⟨"11/9/2025", "General Waste"⟩] (some " <table> ") "ignored"
        = ([⟨⟨2025, 9, 11⟩, ["General Waste"]⟩], some "<table>") := by
  refine ⟨rfl, ?_, by decide, ?_⟩
  · have h := (fallback_only_when_table_empty_confirmed [] none
      "Next collection\n12/09/2025\nGeneral waste").2 rfl
    rw [h.1]
    decide
  · have h := (fallback_only_when_table_empty_confirmed [⟨"11/9/2025", "General Waste"⟩]
      (some " <table> ") "ignored").1 (by decide)
    rw [h]
    decide
